import Mathlib

/-!
Verification of the ms2cc core algorithms: a shallow embedding of the
tokenizer, log-scanner state machine, file-index builder and command
resolver, together with proofs of the specification claims.

Strings are modelled as `List Char`; Rust's Unicode lower-casing is
modelled by ASCII lower-casing (`Char.toLower`), byte positions by
character positions, and `std::path` operations by a Unix-style
component model (`RPath`).
-/

namespace Ms2cc

abbrev Str := List Char

/-- Model of Rust `char::is_whitespace` (the Unicode White_Space set). -/
def isWhitespaceChar (c : Char) : Bool :=
  c = ' ' || c = '\t' || c = '\n' || c = '\x0b' || c = '\x0c' || c = '\r' ||
  c.val = 0x85 || c.val = 0xA0 || c.val = 0x1680 ||
  (0x2000 ≤ c.val && c.val ≤ 0x200A) ||
  c.val = 0x2028 || c.val = 0x2029 || c.val = 0x202F || c.val = 0x205F ||
  c.val = 0x3000

/-- ASCII lower-casing of a string; models both `str::to_lowercase` and
`to_ascii_lowercase` (non-ASCII letters are left unchanged). -/
def toLowerStr (s : Str) : Str := s.map Char.toLower

/-- Model of Rust `eq_ignore_ascii_case`. -/
def eqIgnoreAsciiCase (a b : Str) : Bool := toLowerStr a = toLowerStr b

/-- Model of `ends_with_ignore_ascii_case` from `lib.rs`: compare the final
`suffix.len()` characters of `value` against `suffix`, ASCII
case-insensitively (the saturating subtraction mirrors the source). -/
def ends_with_ignore_ascii_case (value suffix : Str) : Bool :=
  eqIgnoreAsciiCase (value.drop (value.length - suffix.length)) suffix

/-- Model of Rust `str::trim_end` (drop trailing whitespace). -/
def trimEnd (s : Str) : Str := (s.reverse.dropWhile isWhitespaceChar).reverse

/-- Model of `trim_end_matches` with a character-set pattern: drop all
trailing characters satisfying `p`. -/
def trimEndMatches (p : Char → Bool) (s : Str) : Str :=
  (s.reverse.dropWhile p).reverse

/-- Model of `trim_matches` with a character-set pattern: drop all leading
and trailing characters satisfying `p`. -/
def trimMatches (p : Char → Bool) (s : Str) : Str :=
  trimEndMatches p (s.dropWhile p)

/-- Model of Rust `str::contains` with a string pattern. -/
def strContains (hay needle : Str) : Bool :=
  match hay with
  | [] => needle.isEmpty
  | _ :: rest => needle.isPrefixOf hay || strContains rest needle

/-- Index (in characters) of the first occurrence of `needle` in `hay`;
models `str::match_indices(..).next()`. -/
def findSubIdx (needle : Str) : Str → Option Nat
  | [] => if needle.isEmpty then some 0 else none
  | c :: rest =>
      if needle.isPrefixOf (c :: rest) then some 0
      else (findSubIdx needle rest).map (· + 1)

/-- Index of the last character satisfying `p`; models `str::rfind` with a
character-set pattern. -/
def rfindIdx (p : Char → Bool) : Str → Option Nat
  | [] => none
  | c :: rest =>
      match rfindIdx p rest with
      | some i => some (i + 1)
      | none => if p c then some 0 else none

/-- Join a list of strings with a single separator character. -/
def joinSep (sep : Char) : List Str → Str
  | [] => []
  | [x] => x
  | x :: xs => x ++ sep :: joinSep sep xs

/-- The quote character set `['"', '\'']` used by
`ends_with_cpp_source_file` and `first_executable_name`. -/
def isQuoteChar (c : Char) : Bool := c = '"' || c = '\''

/-- Model of `parser::ends_with_cpp_source_file` (`lib.rs`): trim trailing
whitespace, then all trailing quote characters, then test each configured
extension as an ASCII case-insensitive suffix. -/
def ends_with_cpp_source_file (line : Str) (file_extensions : List Str) : Bool :=
  let line1 := trimEnd line
  let line2 := trimEndMatches isQuoteChar line1
  file_extensions.any (fun ext => ends_with_ignore_ascii_case line2 ext)

/-! ## Tokenizer (`parser::tokenize_compile_command`) -/

/-- The tokenizer's mutable local state in `tokenize_compile_command`. -/
structure TokState where
  tokens : List Str
  current : Str
  in_quotes : Bool
  backslash_count : Nat
  argument_in_progress : Bool
deriving DecidableEq

def initTokState : TokState := ⟨[], [], false, 0, false⟩

/-- One iteration of the character loop of `tokenize_compile_command`. -/
def tokStep (st : TokState) (ch : Char) : TokState :=
  if ch = '\\' then
    { st with backslash_count := st.backslash_count + 1 }
  else if ch = '"' then
    let current := st.current ++ List.replicate (st.backslash_count / 2) '\\'
    if st.backslash_count % 2 = 0 then
      { st with current := current, in_quotes := !st.in_quotes,
                backslash_count := 0, argument_in_progress := true }
    else
      { st with current := current ++ ['"'],
                backslash_count := 0, argument_in_progress := true }
  else if isWhitespaceChar ch && !st.in_quotes then
    let st :=
      if st.backslash_count > 0 then
        { st with current := st.current ++ List.replicate st.backslash_count '\\',
                  backslash_count := 0, argument_in_progress := true }
      else st
    if st.argument_in_progress then
      { st with tokens := st.tokens ++ [st.current], current := [],
                argument_in_progress := false }
    else st
  else
    { st with
        current := st.current ++ List.replicate st.backslash_count '\\' ++ [ch],
        backslash_count := 0,
        argument_in_progress := true }

/-- The post-loop flush of `tokenize_compile_command`: trailing backslashes
become literal characters, then any open argument is closed. -/
def tokenizeFinish (st : TokState) : List Str :=
  let st :=
    if st.backslash_count > 0 then
      { st with current := st.current ++ List.replicate st.backslash_count '\\',
                backslash_count := 0, argument_in_progress := true }
    else st
  if st.argument_in_progress then st.tokens ++ [st.current] else st.tokens

/-- The splitting pass of `tokenize_compile_command`, before the
executable-path reassembly pass. -/
def tokenizeCore (line : Str) : List Str :=
  tokenizeFinish (line.foldl tokStep initTokState)

/-- Model of `parser::is_executable_path`. -/
def is_executable_path (token : Str) : Bool :=
  let token := trimEnd (token.dropWhile isWhitespaceChar)
  let lowercase := toLowerStr token
  List.isSuffixOf ".exe".toList lowercase ||
  List.isSuffixOf ".com".toList lowercase ||
  List.isSuffixOf ".cmd".toList lowercase ||
  List.isSuffixOf ".bat".toList lowercase

/-- The token-merging loop of the executable-path reassembly pass: glue
successive tokens onto `merged` (space-joined) until the result looks like
an executable path; returns the merged token and the remaining tokens, or
`none` when the input is exhausted first. -/
def mergeLoop (merged : Str) : List Str → Option (Str × List Str)
  | [] => none
  | t :: rest =>
      let merged := merged ++ ' ' :: t
      if is_executable_path merged then some (merged, rest)
      else mergeLoop merged rest

/-- Model of `parser::tokenize_compile_command` (`lib.rs`): the character
scan followed by the executable-path reassembly pass, which splices the
merged leading tokens back into the vector. -/
def tokenize_compile_command (line : Str) : List Str :=
  match tokenizeCore line with
  | [] => []
  | first :: rest =>
      if first.contains ':' && !is_executable_path first then
        match mergeLoop first rest with
        | some (merged, remaining) => merged :: remaining
        | none => first :: rest
      else first :: rest

/-! ## Path model

Rust `Path`/`PathBuf` values are modelled Unix-style: an absolute flag plus
the list of normal components (empty and `.` components are removed by
parsing, as Rust's `Components` does; `..` components are kept). -/

structure RPath where
  absolute : Bool
  comps : List Str
deriving DecidableEq

/-- Model of `PathBuf::from` on a string. -/
def parsePath (s : Str) : RPath :=
  ⟨(match s with | '/' :: _ => true | _ => false),
   (s.splitOn '/').filter (fun c => !(c.isEmpty || c = ['.']))⟩

/-- The empty path `PathBuf::new()` / `""`. -/
def emptyPath : RPath := ⟨false, []⟩

/-- Model of `Path::file_name`: the last component, unless it is `..`. -/
def RPath.fileName (p : RPath) : Option Str :=
  match p.comps.getLast? with
  | none => none
  | some c => if c = "..".toList then none else some c

/-- Model of `Path::parent`: the path without its final component; `none`
for the empty path and the root. -/
def RPath.parent (p : RPath) : Option RPath :=
  match p.comps with
  | [] => none
  | _ :: _ => some ⟨p.absolute, p.comps.dropLast⟩

/-- Model of `PathBuf::push`: an absolute argument replaces the path,
otherwise its components are appended. -/
def RPath.push (p q : RPath) : RPath :=
  if q.absolute then q else ⟨p.absolute, p.comps ++ q.comps⟩

/-- A bare file name as a relative path (`PathBuf::from(file_name)`). -/
def pathOfName (name : Str) : RPath := ⟨false, [name]⟩

/-- Model of `Path::has_root` (on Unix, the same as `is_absolute`). -/
def RPath.hasRoot (p : RPath) : Bool := p.absolute

/-- Whether `as_os_str().is_empty()` holds: only the empty relative path
renders as the empty string. -/
def RPath.isEmptyOs (p : RPath) : Bool := !p.absolute && p.comps.isEmpty

/-- Model of `Path::extension` applied to a file name: the portion after
the last `.`, unless there is none or the name starts with its only `.`. -/
def extensionOfName (name : Str) : Option Str :=
  match rfindIdx (· = '.') name with
  | none => none
  | some i => if i = 0 then none else some (name.drop (i + 1))

/-- Model of `Path::extension`. -/
def RPath.extension (p : RPath) : Option Str :=
  match p.fileName with
  | none => none
  | some name => extensionOfName name

/-! ## Data model (`lib.rs`) -/

/-- Model of the `IndexedPath` enum. -/
inductive IndexedPath where
  | unique (path : RPath)
  | ambiguous
deriving DecidableEq

/-- Model of `IndexedPath::mark_conflict`. -/
def IndexedPath.mark_conflict : IndexedPath → IndexedPath := fun _ => .ambiguous

/-- Model of `IndexedPath::parent`. -/
def IndexedPath.parent : IndexedPath → Option RPath
  | .unique path => some path
  | .ambiguous => none

/-- Model of `CompileCommand` (arguments are `OsString`s, modelled as
strings). -/
structure CompileCommand where
  file : Str
  directory : RPath
  arguments : List Str
deriving DecidableEq

/-- Model of the `Ms2ccError` variants reachable from the embedded code
(the `io::Error`-carrying variants live outside the embedded fragment). -/
inductive Ms2ccError where
  | MissingFileName (path : RPath)
  | MissingExtension (path : RPath)
  | MissingParent (path : RPath)
  | InvalidFoArgument (argument : Str)
  | MissingFoArgument (arguments : List Str)
  | EmptyTokenVector
  | MissingTrailingFile (arguments : List Str)
  | UnexpectedLine (line : Str) (current : Str)
  | UnresolvedSourcePath (file : Str) (arguments : List Str)
deriving DecidableEq

deriving instance DecidableEq for Except

/-- Model of `parser::extract_and_validate_filename`. -/
def extract_and_validate_filename (arg_path : RPath) :
    Except Ms2ccError Str :=
  match arg_path.fileName with
  | none => .error (.MissingFileName arg_path)
  | some file_name =>
      if (extensionOfName file_name).isNone then
        .error (.MissingExtension arg_path)
      else .ok file_name

/-- Model of `compile_commands::create_compile_command`. -/
def create_compile_command (path : RPath) (arguments : List Str) :
    Except Ms2ccError CompileCommand :=
  match path.parent with
  | none => .error (.MissingParent path)
  | some directory =>
      if directory.isEmptyOs then .error (.MissingParent path)
      else
        match path.fileName with
        | none => .error (.MissingFileName path)
        | some file => .ok ⟨file, directory, arguments⟩

/-- The literal `/Fo` flag. -/
def foFlag : Str := "/Fo".toList

/-- Model of `compile_commands::find_fo_argument`. -/
def find_fo_argument (arguments : List Str) : Option Str :=
  arguments.find? (fun s => foFlag.isPrefixOf s)

/-- Model of `compile_commands::extract_fo_path`. -/
def extract_fo_path (fo_argument : Str) : Except Ms2ccError RPath :=
  if foFlag.isPrefixOf fo_argument then
    .ok (parsePath (fo_argument.drop foFlag.length))
  else .error (.InvalidFoArgument fo_argument)

/-! ## File index builder (`pipeline.rs`) -/

/-- The concurrent map is modelled as an association list without
duplicate keys; keys are normalized (lower-cased) file names. -/
abbrev FileMap := List (Str × IndexedPath)

/-- Lookup of an entry by key. -/
def FileMap.find? (m : FileMap) (name : Str) : Option IndexedPath :=
  (List.find? (fun e => e.1 = name) m).map (·.2)

/-- Model of `tree.entry(name).and_modify(|e| e.mark_conflict())
.or_insert(IndexedPath::unique(parent))` in `build_file_map`: an existing
entry is marked ambiguous (whatever its stored parent), a missing one is
inserted as unique. -/
def insertEntry (m : FileMap) (name : Str) (parent : RPath) : FileMap :=
  if (List.find? (fun e => e.1 = name) m).isSome then
    m.map (fun e => if e.1 = name then (e.1, e.2.mark_conflict) else e)
  else m ++ [(name, IndexedPath.unique parent)]

/-- Lower-casing of a whole path, modelling `normalize_component` (which
lower-cases the rendered component string). -/
def lowerPath (p : RPath) : RPath := ⟨p.absolute, p.comps.map toLowerStr⟩

/-- One received path in `build_file_map`: split into file name and
parent, normalize both, and insert. Paths without both parts are skipped. -/
def buildStep (m : FileMap) (path : RPath) : FileMap :=
  match path.fileName, path.parent with
  | some file_name, some parent =>
      insertEntry m (toLowerStr file_name) (lowerPath parent)
  | _, _ => m

/-- Model of `build_file_map`: fold the received path stream into the map. -/
def build_file_map (paths : List RPath) : FileMap :=
  paths.foldl buildStep []

/-- The normalized (file-name, parent) pairs a path stream contributes, in
order; used to characterize `build_file_map`. -/
def entriesOf (paths : List RPath) : List (Str × RPath) :=
  paths.filterMap (fun path =>
    match path.fileName, path.parent with
    | some file_name, some parent =>
        some (toLowerStr file_name, lowerPath parent)
    | _, _ => none)

/-- Reference value of an index entry in terms of the inserted pairs with
that key: absent if never seen, unique with the recorded parent if seen
once, ambiguous if seen at least twice. -/
def indexModel (entries : List (Str × RPath)) (name : Str) :
    Option IndexedPath :=
  match entries.filter (fun e => e.1 = name) with
  | [] => none
  | [e] => some (IndexedPath.unique e.2)
  | _ => some IndexedPath.ambiguous

/-! ## Log scanner (`log_scan.rs`) -/

/-- The separator set used by `first_executable_name`'s `rfind`. -/
def sepChar (c : Char) : Bool :=
  c = '\\' || c = '/' || c = ' ' || c = '\t' || c = '"' || c = '\'' || c = '('

/-- Model of `log_scan::first_executable_name`: the token ending at the
first `.exe` occurrence, delimited on the left by the last separator
character, trimmed of surrounding quotes. -/
def first_executable_name (line : Str) : Option Str :=
  (findSubIdx ".exe".toList line).map (fun idx =>
    let pfx := line.take (idx + 4)
    let start :=
      match rfindIdx sepChar pfx with
      | some pos => pos + 1
      | none => 0
    trimMatches isQuoteChar (pfx.drop start))

/-- What one `LogLineIter` line-processing step produces besides the new
pending state: a complete command, an `UnexpectedLine` error, or nothing. -/
inductive ScanItem where
  | emit (command : Str)
  | unexpected (line : Str) (current : Str)
  | skip
deriving DecidableEq

/-- Model of `trim_end_matches(['\r', '\n'])` applied to each read line. -/
def trimCrlf (s : Str) : Str := trimEndMatches (fun c => c = '\r' || c = '\n') s

/-- One line-processing step of `LogLineIter::next` (`log_scan.rs`,
the `Ok(_)` arm): `pending_command` is the accumulating buffer, `none`
meaning the idle state. -/
def scanStep (compiler_exe_lower : Str) (file_extensions : List Str)
    (pending_command : Option Str) (raw_line : Str) : Option Str × ScanItem :=
  match pending_command with
  | some command =>
      if ends_with_cpp_source_file (trimCrlf raw_line) file_extensions then
        (none, .emit (command ++ ' ' :: trimCrlf raw_line))
      else if strContains (toLowerStr (trimCrlf raw_line))
          compiler_exe_lower then
        (none, .unexpected (trimCrlf raw_line)
          (command ++ ' ' :: trimCrlf raw_line))
      else (some (command ++ ' ' :: trimCrlf raw_line), .skip)
  | none =>
      match first_executable_name (toLowerStr (trimCrlf raw_line)) with
      | none => (none, .skip)
      | some executable =>
          if executable ≠ compiler_exe_lower then (none, .skip)
          else if ends_with_cpp_source_file (trimCrlf raw_line)
              file_extensions then
            (none, .emit (trimCrlf raw_line))
          else (some (trimCrlf raw_line), .skip)

/-! ## Command resolver (`command_builder.rs`) -/

/-- Model of `is_source_file_argument`. -/
def is_source_file_argument (arg : Str) : Bool :=
  match extract_and_validate_filename (parsePath arg) with
  | .ok _ => true
  | .error _ => false

/-- The `trailing_indices` computation in `assemble`: indices of the
maximal run of qualifying arguments at the end of the vector, ascending. -/
def trailingIndices (arguments : List Str) : List Nat :=
  (((arguments.enum).reverse.takeWhile
      (fun p => is_source_file_argument p.2)).map Prod.fst).reverse

/-- The `/Fo` search loop of `resolve_source_path`: starting from the
`/Fo` path, test `fo_path/file_name` and `fo_path/original-argument` for
existence, popping one component per iteration. Returns the candidate path
(unchanged if nothing was found) and the final `fo_path`. The fuel is
called with more than the component count, so it never runs out before
the loop's own exit conditions. -/
def foLoop (fs : RPath → Bool) (file_name : Str) (arg_path_buf : RPath) :
    Nat → RPath → RPath → RPath × RPath
  | 0, path, fo_path => (path, fo_path)
  | fuel + 1, path, fo_path =>
      if fo_path.hasRoot then
        let test1 := fo_path.push (pathOfName file_name)
        if fs test1 then (test1, fo_path)
        else
          let test2 := fo_path.push arg_path_buf
          if fs test2 then (test2, fo_path)
          else
            match fo_path.parent with
            | some popped => foLoop fs file_name arg_path_buf fuel path popped
            | none => (path, fo_path)
      else (path, fo_path)

/-- The initial `path` candidate of `resolve_source_path`: the argument
itself if absolute, else the index lookup joined with the file name, else
`PathBuf::new()`. -/
def initialCandidate (file_index : FileMap) (arg_path_buf : RPath)
    (file_name : Str) : RPath :=
  if arg_path_buf.absolute then arg_path_buf
  else
    match (FileMap.find? file_index file_name).bind IndexedPath.parent with
    | some parent => parent.push (pathOfName file_name)
    | none => emptyPath

/-- The `/Fo` fallback block of `resolve_source_path` (the
`if !path.is_absolute()` statement): absolute candidates pass through;
otherwise the first `/Fo` argument seeds the search loop, its absence
being a `MissingFoArgument` error. -/
def applyFoFallback (fs : RPath → Bool) (arguments : List Str)
    (file_name : Str) (arg_path_buf : RPath) (path : RPath) :
    Except Ms2ccError RPath :=
  if !path.absolute then
    match find_fo_argument arguments with
    | none => .error (.MissingFoArgument arguments)
    | some fo_argument =>
        match extract_fo_path fo_argument with
        | .error e => .error e
        | .ok fo_start =>
            let pr := foLoop fs file_name arg_path_buf
              (fo_start.comps.length + 1) path fo_start
            .ok (if pr.1.isEmptyOs then pr.2 else pr.1)
  else .ok path

/-- Model of `resolve_source_path`; `fs` is the filesystem oracle for
`Path::is_file`. -/
def resolve_source_path (fs : RPath → Bool) (file_index : FileMap)
    (arguments : List Str) (file_argument : Str) : Except Ms2ccError RPath :=
  match extract_and_validate_filename (parsePath file_argument) with
  | .error e => .error e
  | .ok file_name =>
      match applyFoFallback fs arguments file_name (parsePath file_argument)
          (initialCandidate file_index (parsePath file_argument)
            file_name) with
      | .error e => .error e
      | .ok path =>
          if !path.absolute || !fs path then
            .error (.UnresolvedSourcePath file_name arguments)
          else .ok path

/-- The per-trailing-argument body of `assemble`'s result loop. -/
def assembleOne (fs : RPath → Bool) (file_index : FileMap)
    (arguments : List Str) (file_argument : Str) :
    Except Ms2ccError CompileCommand :=
  match resolve_source_path fs file_index arguments file_argument with
  | .ok path => create_compile_command path arguments
  | .error e => .error e

/-- Model of `assemble` (`command_builder.rs`). -/
def assemble (fs : RPath → Bool) (file_index : FileMap) (tokens : List Str) :
    List (Except Ms2ccError CompileCommand) :=
  if tokens.isEmpty then [.error .EmptyTokenVector]
  else if (trailingIndices tokens).isEmpty then
    [.error (.MissingTrailingFile tokens)]
  else
    (trailingIndices tokens).map (fun index =>
      assembleOne fs file_index tokens (tokens.getD index []))

/-! ## Theorems -/

/-- Unfolding `build_file_map` one path at a time from the right. -/
theorem build_file_map_snoc (ps : List RPath) (p : RPath) :
    build_file_map (ps ++ [p]) = buildStep (build_file_map ps) p := by
  unfold build_file_map
  rw [List.foldl_append]
  rfl

theorem entriesOf_append (ps qs : List RPath) :
    entriesOf (ps ++ qs) = entriesOf ps ++ entriesOf qs := by
  unfold entriesOf
  rw [List.filterMap_append]

theorem find?_cons (e : Str × IndexedPath) (m : FileMap) (name : Str) :
    FileMap.find? (e :: m) name =
      if e.1 = name then some e.2 else FileMap.find? m name := by
  by_cases h : e.1 = name <;> simp [FileMap.find?, List.find?_cons, h]

/-- Marking all entries with key `key` as conflicting maps that key's
value through `mark_conflict`. -/
theorem find?_markAll_same (m : FileMap) (key : Str) :
    FileMap.find? (m.map (fun e =>
        if e.1 = key then (e.1, e.2.mark_conflict) else e)) key =
      (FileMap.find? m key).map IndexedPath.mark_conflict := by
  induction m with
  | nil => rfl
  | cons e m ih =>
      by_cases h : e.1 = key
      · simp [find?_cons, h, List.map_cons]
      · simp only [List.map_cons, if_neg h, find?_cons, h, if_false]
        exact ih

/-- Marking entries with a different key leaves a key's value unchanged. -/
theorem find?_markAll_other (m : FileMap) (key name : Str)
    (hne : key ≠ name) :
    FileMap.find? (m.map (fun e =>
        if e.1 = key then (e.1, e.2.mark_conflict) else e)) name =
      FileMap.find? m name := by
  induction m with
  | nil => rfl
  | cons e m ih =>
      by_cases h : e.1 = key
      · have h' : e.1 ≠ name := by rw [h]; exact hne
        simp only [List.map_cons, if_pos h, find?_cons, h', if_neg h']
        exact ih
      · simp only [List.map_cons, if_neg h, find?_cons]
        by_cases h' : e.1 = name
        · simp [h']
        · simp only [if_neg h']
          exact ih

/-- Appending a fresh entry at the back is only visible for keys the map
does not already contain. -/
theorem find?_append_singleton (m : FileMap) (key : Str) (v : IndexedPath)
    (name : Str) :
    FileMap.find? (m ++ [(key, v)]) name =
      match FileMap.find? m name with
      | some w => some w
      | none => if key = name then some v else none := by
  induction m with
  | nil => by_cases h : key = name <;> simp [FileMap.find?, List.find?_cons, h]
  | cons e m ih =>
      by_cases h : e.1 = name
      · simp [List.cons_append, find?_cons, h]
      · simp only [List.cons_append, find?_cons, if_neg h]
        exact ih

/-- The `isSome` guard in `insertEntry` agrees with `FileMap.find?`. -/
theorem insertEntry_guard (m : FileMap) (key : Str) :
    (List.find? (fun e => e.1 = key) m).isSome =
      (FileMap.find? m key).isSome := by
  unfold FileMap.find?
  cases List.find? (fun e => e.1 = key) m <;> rfl

/-- `insertEntry` on the inserted key: a missing entry becomes unique, any
present entry becomes ambiguous. -/
theorem find?_insertEntry_same (m : FileMap) (key : Str) (par : RPath) :
    FileMap.find? (insertEntry m key par) key =
      match FileMap.find? m key with
      | none => some (IndexedPath.unique par)
      | some _ => some IndexedPath.ambiguous := by
  unfold insertEntry
  rw [insertEntry_guard]
  cases hx : FileMap.find? m key with
  | none =>
      simp only [hx, Option.isSome_none, Bool.false_eq_true, if_false]
      rw [find?_append_singleton, hx]
      simp
  | some v =>
      simp only [hx, Option.isSome_some, if_true]
      rw [find?_markAll_same, hx]
      rfl

/-- `insertEntry` does not change other keys. -/
theorem find?_insertEntry_other (m : FileMap) (key : Str) (par : RPath)
    (name : Str) (hne : key ≠ name) :
    FileMap.find? (insertEntry m key par) name = FileMap.find? m name := by
  unfold insertEntry
  by_cases hmem : (List.find? (fun e => e.1 = key) m).isSome
  · rw [if_pos hmem]
    exact find?_markAll_other m key name hne
  · rw [if_neg hmem, find?_append_singleton]
    cases hx : FileMap.find? m name with
    | none => simp [hne]
    | some w => rfl

theorem indexModel_append_other (es : List (Str × RPath))
    (key name : Str) (par : RPath) (hne : key ≠ name) :
    indexModel (es ++ [(key, par)]) name = indexModel es name := by
  have h1 : List.filter (fun e => e.1 = name) [(key, par)] = [] := by
    simp [hne]
  unfold indexModel
  rw [List.filter_append, h1, List.append_nil]

/-- The stored value for each key is determined by the normalized entries
inserted so far, as described by `indexModel`: absent keys are unmapped, a
key seen exactly once is `unique` with that sighting's parent, a key seen
at least twice is `ambiguous` — whether or not the parents differ. -/
theorem find?_build_file_map (paths : List RPath) (name : Str) :
    FileMap.find? (build_file_map paths) name =
      indexModel (entriesOf paths) name := by
  induction paths using List.reverseRecOn with
  | nil => rfl
  | append_singleton ps p ih =>
      rw [build_file_map_snoc, entriesOf_append]
      unfold buildStep
      cases hf : p.fileName with
      | none =>
          have : entriesOf [p] = [] := by simp [entriesOf, hf]
          rw [this, List.append_nil]
          exact ih
      | some fn =>
          cases hp : p.parent with
          | none =>
              have : entriesOf [p] = [] := by simp [entriesOf, hf, hp]
              rw [this, List.append_nil]
              exact ih
          | some par =>
              have hent : entriesOf [p] = [(toLowerStr fn, lowerPath par)] := by
                simp [entriesOf, hf, hp]
              rw [hent]
              by_cases hkey : toLowerStr fn = name
              · subst hkey
                rw [find?_insertEntry_same, ih]
                unfold indexModel
                rw [List.filter_append]
                have : (decide (toLowerStr fn = toLowerStr fn)) = true := by
                  simp
                cases hflt : (entriesOf ps).filter
                    (fun e => e.1 = toLowerStr fn) with
                | nil => simp [this]
                | cons e0 rest => cases rest <;> simp [this]
              · rw [find?_insertEntry_other _ _ _ _ hkey, ih,
                  indexModel_append_other _ _ _ _ hkey]

/-- With at least two sightings of a key, the model answer is ambiguous. -/
theorem indexModel_of_two (es : List (Str × RPath)) (name : Str)
    (a b : Str × RPath) (t : List (Str × RPath))
    (h : es.filter (fun e => e.1 = name) = a :: b :: t) :
    indexModel es name = some IndexedPath.ambiguous := by
  unfold indexModel
  rw [h]

/-- With at least one sighting of a key, the model answer is present. -/
theorem indexModel_isSome (es : List (Str × RPath)) (name : Str)
    (a : Str × RPath) (t : List (Str × RPath))
    (h : es.filter (fun e => e.1 = name) = a :: t) :
    (indexModel es name).isSome := by
  unfold indexModel
  rw [h]
  cases t <;> rfl

/-- C1, counterexample: feeding the very same path twice to the builder
turns the entry Ambiguous, although the second insertion carries the same
(file-name, parent-directory) pair; the claim says it should remain Unique
with parent `/src`. -/
theorem c1_counterexample :
    FileMap.find? (build_file_map [parsePath "/src/main.cpp".toList,
        parsePath "/src/main.cpp".toList]) "main.cpp".toList =
      some IndexedPath.ambiguous ∧
    some IndexedPath.ambiguous ≠
      some (IndexedPath.unique (parsePath "/src".toList)) := by
  constructor
  · decide
  · decide

/-- C1 (amended): an entry for a file name is absent until a first path
with that (normalized) name is inserted, Unique with that path's parent
after exactly one insertion, and Ambiguous as soon as a second path with
the same file name is inserted — regardless of whether its parent equals
the stored one. -/
theorem c1_index_entry_behavior (paths : List RPath) (name : Str) :
    FileMap.find? (build_file_map paths) name =
      indexModel (entriesOf paths) name :=
  find?_build_file_map paths name

/-- C9: once an entry is Ambiguous, processing any further paths leaves it
Ambiguous, and entries are never deleted: any mapped name stays mapped. -/
theorem c9_ambiguous_is_permanent (ps qs : List RPath) (name : Str) :
    (FileMap.find? (build_file_map ps) name = some IndexedPath.ambiguous →
      FileMap.find? (build_file_map (ps ++ qs)) name =
        some IndexedPath.ambiguous) ∧
    (∀ e, FileMap.find? (build_file_map ps) name = some e →
      (FileMap.find? (build_file_map (ps ++ qs)) name).isSome) := by
  constructor
  · intro h
    rw [find?_build_file_map] at h ⊢
    rw [entriesOf_append]
    cases hflt : (entriesOf ps).filter (fun e => e.1 = name) with
    | nil =>
        unfold indexModel at h
        rw [hflt] at h
        exact absurd h (by simp)
    | cons a t =>
        cases t with
        | nil =>
            unfold indexModel at h
            rw [hflt] at h
            simp at h
        | cons b t =>
            refine indexModel_of_two _ _ a b
              (t ++ (entriesOf qs).filter (fun e => e.1 = name)) ?_
            rw [List.filter_append, hflt]
            simp
  · intro e h
    rw [find?_build_file_map] at h ⊢
    rw [entriesOf_append]
    cases hflt : (entriesOf ps).filter (fun e => e.1 = name) with
    | nil =>
        unfold indexModel at h
        rw [hflt] at h
        exact absurd h (by simp)
    | cons a t =>
        refine indexModel_isSome _ _ a
          (t ++ (entriesOf qs).filter (fun e => e.1 = name)) ?_
        rw [List.filter_append, hflt]
        simp

/-- C9, witness: a name made ambiguous by two parents stays ambiguous and
mapped after a third insertion. -/
theorem c9_witness :
    FileMap.find? (build_file_map
        ([parsePath "/a/x.cpp".toList, parsePath "/b/x.cpp".toList] ++
          [parsePath "/c/x.cpp".toList])) "x.cpp".toList =
      some IndexedPath.ambiguous ∧
    (FileMap.find? (build_file_map
        ([parsePath "/a/x.cpp".toList, parsePath "/b/x.cpp".toList] ++
          [parsePath "/c/x.cpp".toList])) "x.cpp".toList).isSome := by
  have h := c9_ambiguous_is_permanent
    [parsePath "/a/x.cpp".toList, parsePath "/b/x.cpp".toList]
    [parsePath "/c/x.cpp".toList] "x.cpp".toList
  exact ⟨h.1 (by decide), h.2 IndexedPath.ambiguous (by decide)⟩

/-- When the last argument does not qualify, no trailing indices exist. -/
theorem trailingIndices_nil (ts : List Str) (t : Str)
    (hq : is_source_file_argument t = false) :
    trailingIndices (ts ++ [t]) = [] := by
  unfold trailingIndices
  rw [List.enum_append]
  have h1 : List.enumFrom ts.length [t] = [(ts.length, t)] := rfl
  rw [h1, List.reverse_append]
  simp only [List.reverse_cons, List.reverse_nil, List.nil_append,
    List.singleton_append, List.takeWhile_cons]
  simp [hq]

/-- C6: the empty token vector yields exactly one `EmptyTokenVector` error
and zero records; a non-empty vector whose trailing argument does not
qualify as a source file yields exactly one `MissingTrailingFile` error
carrying the arguments and zero records. -/
theorem c6_assemble_degenerate_cases (fs : RPath → Bool)
    (file_index : FileMap) :
    assemble fs file_index [] = [.error .EmptyTokenVector] ∧
    ∀ (ts : List Str) (t : Str), is_source_file_argument t = false →
      assemble fs file_index (ts ++ [t]) =
        [.error (.MissingTrailingFile (ts ++ [t]))] := by
  refine ⟨rfl, ?_⟩
  intro ts t hq
  unfold assemble
  rw [if_neg (by simp), trailingIndices_nil ts t hq]
  rfl

/-- C6, witness: `["cl.exe", "/c"]` (whose last argument has no extension)
produces exactly the `MissingTrailingFile` error, and `[]` the
`EmptyTokenVector` error. -/
theorem c6_witness :
    assemble (fun _ => false) [] [] = [.error .EmptyTokenVector] ∧
    assemble (fun _ => false) [] ["cl.exe".toList, "/c".toList] =
      [.error (.MissingTrailingFile ["cl.exe".toList, "/c".toList])] :=
  ⟨(c6_assemble_degenerate_cases (fun _ => false) []).1,
    (c6_assemble_degenerate_cases (fun _ => false) []).2
      ["cl.exe".toList] "/c".toList (by decide)⟩

/-- `extract_and_validate_filename` only fails with `MissingFileName` or
`MissingExtension`. -/
theorem extract_and_validate_filename_error (p : RPath) (e : Ms2ccError)
    (h : extract_and_validate_filename p = .error e) :
    e = .MissingFileName p ∨ e = .MissingExtension p := by
  unfold extract_and_validate_filename at h
  split at h
  · injection h with h
    exact .inl h.symm
  · split at h
    · injection h with h
      exact .inr h.symm
    · exact absurd h (by simp)

/-- Anything `find_fo_argument` returns starts with the `/Fo` prefix. -/
theorem find_fo_argument_spec (arguments : List Str) (a : Str)
    (h : find_fo_argument arguments = some a) :
    foFlag.isPrefixOf a = true :=
  List.find?_some h

/-- On a `/Fo`-prefixed argument, `extract_fo_path` always succeeds. -/
theorem extract_fo_path_of_fo (a : Str) (h : foFlag.isPrefixOf a = true) :
    extract_fo_path a = .ok (parsePath (a.drop foFlag.length)) := by
  unfold extract_fo_path
  rw [if_pos h]

/-- The `/Fo` fallback never produces `InvalidFoArgument`. -/
theorem applyFoFallback_not_invalid (fs : RPath → Bool)
    (arguments : List Str) (file_name : Str) (arg_path_buf path : RPath)
    (argument : Str) :
    applyFoFallback fs arguments file_name arg_path_buf path ≠
      .error (.InvalidFoArgument argument) := by
  intro h
  unfold applyFoFallback at h
  split at h
  · split at h
    · injection h with h
      simp at h
    · next fo_argument hfo =>
        rw [extract_fo_path_of_fo fo_argument
          (find_fo_argument_spec arguments fo_argument hfo)] at h
        simp at h
  · simp at h

/-- C10: `resolve_source_path` can never surface the `InvalidFoArgument`
error: the argument handed to `extract_fo_path` was selected by
`find_fo_argument` and therefore carries the `/Fo` prefix. -/
theorem c10_invalid_fo_unreachable (fs : RPath → Bool)
    (file_index : FileMap) (arguments : List Str)
    (file_argument argument : Str) :
    resolve_source_path fs file_index arguments file_argument ≠
      .error (.InvalidFoArgument argument) := by
  intro h
  unfold resolve_source_path at h
  split at h
  · next e hev =>
      injection h with h
      rcases extract_and_validate_filename_error _ _ hev with he | he <;>
        · rw [he] at h
          simp at h
  · next file_name hev =>
      split at h
      · next e happ =>
          injection h with h
          rw [h] at happ
          exact applyFoFallback_not_invalid fs arguments file_name
            (parsePath file_argument)
            (initialCandidate file_index (parsePath file_argument) file_name)
            argument happ
      · next path happ =>
          split at h
          · injection h with h
            simp at h
          · simp at h

/-- A successful `create_compile_command` stores the argument vector it
was given, unchanged. -/
theorem create_compile_command_ok_arguments (path : RPath)
    (args : List Str) (cc : CompileCommand)
    (h : create_compile_command path args = .ok cc) : cc.arguments = args := by
  unfold create_compile_command at h
  split at h
  · simp at h
  · split at h
    · simp at h
    · split at h
      · simp at h
      · injection h with h
        rw [← h]

/-- A successful `assembleOne` stores the argument vector unchanged. -/
theorem assembleOne_ok_arguments (fs : RPath → Bool) (file_index : FileMap)
    (args : List Str) (file_argument : Str) (cc : CompileCommand)
    (h : assembleOne fs file_index args file_argument = .ok cc) :
    cc.arguments = args := by
  unfold assembleOne at h
  split at h
  · exact create_compile_command_ok_arguments _ _ _ h
  · simp at h

/-- The trailing indices are strictly increasing. -/
theorem trailingIndices_sorted (args : List Str) :
    List.Sorted (· < ·) (trailingIndices args) := by
  have h1 : List.Sublist (args.enum.reverse.takeWhile
      (fun p => is_source_file_argument p.2)) args.enum.reverse :=
    List.takeWhile_sublist _
  have h2 := List.reverse_sublist.mpr h1
  rw [List.reverse_reverse] at h2
  have h3 := h2.map Prod.fst
  rw [List.enum_map_fst] at h3
  have h4 : List.Sublist (trailingIndices args)
      (List.range args.length) := by
    unfold trailingIndices
    rw [← List.map_reverse]
    exact h3
  exact (List.sorted_lt_range args.length).sublist h4

/-- C5: for a non-empty token vector with at least one qualifying trailing
source-file argument, `assemble` emits one result per qualifying trailing
index, in the order those arguments appear in the input (the index list is
strictly increasing), and every emitted `CompileCommand` carries the
original, unmodified argument vector. -/
theorem c5_assemble_order_and_arguments (fs : RPath → Bool)
    (file_index : FileMap) (tokens : List Str)
    (h1 : tokens ≠ []) (h2 : trailingIndices tokens ≠ []) :
    assemble fs file_index tokens =
      (trailingIndices tokens).map (fun index =>
        assembleOne fs file_index tokens (tokens.getD index [])) ∧
    List.Sorted (· < ·) (trailingIndices tokens) ∧
    ∀ cc : CompileCommand, Except.ok cc ∈ assemble fs file_index tokens →
      cc.arguments = tokens := by
  have hmap : assemble fs file_index tokens =
      (trailingIndices tokens).map (fun index =>
        assembleOne fs file_index tokens (tokens.getD index [])) := by
    unfold assemble
    rw [if_neg (by simpa using h1), if_neg (by simpa using h2)]
  refine ⟨hmap, trailingIndices_sorted tokens, ?_⟩
  intro cc hmem
  rw [hmap] at hmem
  rcases List.mem_map.mp hmem with ⟨i, _, hi⟩
  exact assembleOne_ok_arguments _ _ _ _ _ hi

/-- C5, witness: `cl.exe /c main.cpp foo.cpp` against an index resolving
both names to `/src` yields the two records in argument order, both
carrying the original argument vector. -/
theorem c5_witness :
    assemble
        (fun p => decide (p = parsePath "/src/main.cpp".toList) ||
          decide (p = parsePath "/src/foo.cpp".toList))
        [("main.cpp".toList, .unique (parsePath "/src".toList)),
          ("foo.cpp".toList, .unique (parsePath "/src".toList))]
        ["cl.exe".toList, "/c".toList, "main.cpp".toList, "foo.cpp".toList] =
      (trailingIndices ["cl.exe".toList, "/c".toList, "main.cpp".toList,
          "foo.cpp".toList]).map (fun index =>
        assembleOne
          (fun p => decide (p = parsePath "/src/main.cpp".toList) ||
            decide (p = parsePath "/src/foo.cpp".toList))
          [("main.cpp".toList, .unique (parsePath "/src".toList)),
            ("foo.cpp".toList, .unique (parsePath "/src".toList))]
          ["cl.exe".toList, "/c".toList, "main.cpp".toList, "foo.cpp".toList]
          (["cl.exe".toList, "/c".toList, "main.cpp".toList,
            "foo.cpp".toList].getD index [])) ∧
    List.Sorted (· < ·) (trailingIndices ["cl.exe".toList, "/c".toList,
      "main.cpp".toList, "foo.cpp".toList]) ∧
    ∀ cc : CompileCommand, Except.ok cc ∈ assemble
        (fun p => decide (p = parsePath "/src/main.cpp".toList) ||
          decide (p = parsePath "/src/foo.cpp".toList))
        [("main.cpp".toList, .unique (parsePath "/src".toList)),
          ("foo.cpp".toList, .unique (parsePath "/src".toList))]
        ["cl.exe".toList, "/c".toList, "main.cpp".toList, "foo.cpp".toList] →
      cc.arguments =
        ["cl.exe".toList, "/c".toList, "main.cpp".toList, "foo.cpp".toList] :=
  c5_assemble_order_and_arguments
    (fun p => decide (p = parsePath "/src/main.cpp".toList) ||
      decide (p = parsePath "/src/foo.cpp".toList))
    [("main.cpp".toList, .unique (parsePath "/src".toList)),
      ("foo.cpp".toList, .unique (parsePath "/src".toList))]
    ["cl.exe".toList, "/c".toList, "main.cpp".toList, "foo.cpp".toList]
    (by decide) (by decide)

/-- C3, counterexample. First conjunct group: the line
`foo.exe cl.exe /c main.cpp` contains the compiler name as a whole
whitespace-delimited token and ends with a configured extension, yet the
idle scanner does not emit it (the first `.exe` token is `foo.exe`).
Second group: `cl.exe /c main.cpp""` does not end with an extension after
trimming a single trailing quote character, yet the scanner emits it (the
code trims all trailing quotes). -/
theorem c3_counterexample :
    ((toLowerStr "foo.exe cl.exe /c main.cpp".toList).splitOn ' ').contains
        "cl.exe".toList = true ∧
    ends_with_cpp_source_file "foo.exe cl.exe /c main.cpp".toList
        ["cpp".toList] = true ∧
    scanStep "cl.exe".toList ["cpp".toList] none
        "foo.exe cl.exe /c main.cpp".toList = (none, .skip) ∧
    (["cpp".toList].any (fun ext => ends_with_ignore_ascii_case
        (trimEnd "cl.exe /c main.cpp\"\"".toList).dropLast ext) = false) ∧
    scanStep "cl.exe".toList ["cpp".toList] none
        "cl.exe /c main.cpp\"\"".toList =
      (none, .emit "cl.exe /c main.cpp\"\"".toList) := by
  refine ⟨?_, ?_, ?_, ?_, ?_⟩ <;> decide

/-- C3 (amended): for every line processed in the idle state whose first
executable name (the token ending at the first `.exe` occurrence of the
lower-cased line) equals the stored lower-cased compiler executable, the
line is emitted as a complete logical command (staying idle) exactly when
`ends_with_cpp_source_file` accepts it — i.e. when, after trimming
trailing whitespace and then all trailing quote characters, it ends with
a configured extension (ASCII case-insensitively); otherwise the scanner
transitions to accumulating with the line as the initial buffer. -/
theorem c3_idle_emit_iff (compiler_exe_lower : Str)
    (file_extensions : List Str) (raw_line : Str)
    (h : first_executable_name (toLowerStr (trimCrlf raw_line)) =
      some compiler_exe_lower) :
    (scanStep compiler_exe_lower file_extensions none raw_line =
        (none, .emit (trimCrlf raw_line)) ↔
      ends_with_cpp_source_file (trimCrlf raw_line) file_extensions = true) ∧
    (ends_with_cpp_source_file (trimCrlf raw_line) file_extensions = false →
      scanStep compiler_exe_lower file_extensions none raw_line =
        (some (trimCrlf raw_line), .skip)) := by
  unfold scanStep
  rw [h]
  have hne : ¬ (compiler_exe_lower ≠ compiler_exe_lower) := fun hx => hx rfl
  dsimp only
  rw [if_neg hne]
  cases hend : ends_with_cpp_source_file (trimCrlf raw_line) file_extensions
  · rw [if_neg (by simp [hend])]
    exact ⟨by simp, fun _ => rfl⟩
  · rw [if_pos rfl]
    exact ⟨by simp, fun hx => by cases hx⟩

/-- C3, witness: `cl.exe /c main.cpp` is emitted as-is from the idle
state. -/
theorem c3_witness :
    (scanStep "cl.exe".toList ["cpp".toList] none
        "cl.exe /c main.cpp".toList =
      (none, .emit (trimCrlf "cl.exe /c main.cpp".toList)) ↔
      ends_with_cpp_source_file (trimCrlf "cl.exe /c main.cpp".toList)
        ["cpp".toList] = true) ∧
    (ends_with_cpp_source_file (trimCrlf "cl.exe /c main.cpp".toList)
        ["cpp".toList] = false →
      scanStep "cl.exe".toList ["cpp".toList] none
        "cl.exe /c main.cpp".toList =
      (some (trimCrlf "cl.exe /c main.cpp".toList), .skip)) :=
  c3_idle_emit_iff "cl.exe".toList ["cpp".toList]
    "cl.exe /c main.cpp".toList (by decide)

/-- C4: in the accumulating state the new line is appended to the buffer
after exactly one space; the buffer is emitted (returning to idle) exactly
when the new line alone passes the source-extension test; otherwise, if
the lower-cased line contains the compiler executable name, an
`UnexpectedLine` carrying the line and the (appended) partial command is
produced and the buffer discarded (returning to idle); otherwise the
scanner keeps accumulating the appended buffer. -/
theorem c4_accumulating_step (compiler_exe_lower : Str)
    (file_extensions : List Str) (buffer raw_line : Str) :
    (ends_with_cpp_source_file (trimCrlf raw_line) file_extensions = true →
      scanStep compiler_exe_lower file_extensions (some buffer) raw_line =
        (none, .emit (buffer ++ ' ' :: trimCrlf raw_line))) ∧
    (ends_with_cpp_source_file (trimCrlf raw_line) file_extensions = false →
      strContains (toLowerStr (trimCrlf raw_line)) compiler_exe_lower =
        true →
      scanStep compiler_exe_lower file_extensions (some buffer) raw_line =
        (none, .unexpected (trimCrlf raw_line)
          (buffer ++ ' ' :: trimCrlf raw_line))) ∧
    (ends_with_cpp_source_file (trimCrlf raw_line) file_extensions = false →
      strContains (toLowerStr (trimCrlf raw_line)) compiler_exe_lower =
        false →
      scanStep compiler_exe_lower file_extensions (some buffer) raw_line =
        (some (buffer ++ ' ' :: trimCrlf raw_line), .skip)) := by
  refine ⟨fun hend => ?_, fun hend hcont => ?_, fun hend hcont => ?_⟩ <;>
    · unfold scanStep
      rw [hend]
      first
      | rfl
      | (rw [hcont]; rfl)

/-- C4, witness: the three accumulating-state behaviors on concrete
lines — `  main.cpp` completes the buffer, `cl.exe /nologo` raises
`UnexpectedLine` with the appended partial command, `/Iinc` keeps
accumulating. -/
theorem c4_witness :
    scanStep "cl.exe".toList ["cpp".toList] (some "cl.exe /c".toList)
        "  main.cpp".toList =
      (none, .emit ("cl.exe /c".toList ++ ' ' ::
        trimCrlf "  main.cpp".toList)) ∧
    scanStep "cl.exe".toList ["cpp".toList] (some "cl.exe /c".toList)
        "cl.exe /nologo".toList =
      (none, .unexpected (trimCrlf "cl.exe /nologo".toList)
        ("cl.exe /c".toList ++ ' ' :: trimCrlf "cl.exe /nologo".toList)) ∧
    scanStep "cl.exe".toList ["cpp".toList] (some "cl.exe /c".toList)
        "/Iinc".toList =
      (some ("cl.exe /c".toList ++ ' ' :: trimCrlf "/Iinc".toList), .skip) :=
  ⟨(c4_accumulating_step "cl.exe".toList ["cpp".toList] "cl.exe /c".toList
      "  main.cpp".toList).1 (by decide),
    (c4_accumulating_step "cl.exe".toList ["cpp".toList] "cl.exe /c".toList
      "cl.exe /nologo".toList).2.1 (by decide) (by decide),
    (c4_accumulating_step "cl.exe".toList ["cpp".toList] "cl.exe /c".toList
      "/Iinc".toList).2.2 (by decide) (by decide)⟩

/-- C7: at a quote character the scanner flushes `⌊pending/2⌋` literal
backslashes, then — for an even pending count — toggles the in-quotes flag,
or — for an odd count — emits one literal quote; either way the pending
count resets to zero and an argument is marked in progress. In particular
`cl.exe "/D\"V\"" main.cpp` tokenizes to `cl.exe`, `/D"V"`, `main.cpp`. -/
theorem c7_quote_escape_semantics :
    (∀ st : TokState, tokStep st '"' =
      { st with
          current := st.current ++
            List.replicate (st.backslash_count / 2) '\\' ++
            (if st.backslash_count % 2 = 0 then [] else ['"']),
          in_quotes := if st.backslash_count % 2 = 0 then !st.in_quotes
            else st.in_quotes,
          backslash_count := 0,
          argument_in_progress := true }) ∧
    tokenize_compile_command "cl.exe \"/D\\\"V\\\"\" main.cpp".toList =
      ["cl.exe".toList, "/D\"V\"".toList, "main.cpp".toList] := by
  constructor
  · intro st
    unfold tokStep
    rw [if_neg (by decide), if_pos rfl]
    by_cases hpar : st.backslash_count % 2 = 0
    · simp [hpar]
    · simp [hpar]
  · decide

/-- C8: two adjacent quote characters produce an empty argument that is
preserved: from a between-arguments state, scanning `""` followed by a
space pushes an empty token. In particular `cl.exe "" "a b.cpp"`
tokenizes to `cl.exe`, the empty token, and `a b.cpp`. -/
theorem c8_empty_argument_preserved (ts : List Str) (rest : Str) :
    List.foldl tokStep ⟨ts, [], false, 0, false⟩ ('"' :: '"' :: ' ' :: rest) =
      List.foldl tokStep ⟨ts ++ [[]], [], false, 0, false⟩ rest ∧
    tokenize_compile_command "cl.exe \"\" \"a b.cpp\"".toList =
      ["cl.exe".toList, "".toList, "a b.cpp".toList] := by
  constructor
  · have h1 : tokStep ⟨ts, [], false, 0, false⟩ '"' =
        ⟨ts, [], true, 0, true⟩ := by
      unfold tokStep
      simp
    have h2 : tokStep ⟨ts, [], true, 0, true⟩ '"' =
        ⟨ts, [], false, 0, true⟩ := by
      unfold tokStep
      simp
    have h3 : tokStep ⟨ts, [], false, 0, true⟩ ' ' =
        ⟨ts ++ [[]], [], false, 0, false⟩ := by
      unfold tokStep
      simp [isWhitespaceChar]
    rw [List.foldl_cons, h1, List.foldl_cons, h2, List.foldl_cons, h3]
  · decide

/-- A backslash only bumps the pending count. -/
theorem tokStep_backslash (ts : List Str) (a : Str) (q : Bool) (k : Nat)
    (p : Bool) : tokStep ⟨ts, a, q, k, p⟩ '\\' = ⟨ts, a, q, k + 1, p⟩ := by
  unfold tokStep
  simp

/-- An ordinary character (no backslash, no quote, no whitespace) flushes
the pending backslashes and extends the current argument. -/
theorem tokStep_other (c : Char) (hbs : ¬ c = '\\') (hq : ¬ c = '"')
    (hws : isWhitespaceChar c = false) (ts : List Str) (a : Str) (q : Bool)
    (k : Nat) (p : Bool) :
    tokStep ⟨ts, a, q, k, p⟩ c =
      ⟨ts, a ++ List.replicate k '\\' ++ [c], q, 0, true⟩ := by
  unfold tokStep
  rw [if_neg hbs, if_neg hq, if_neg (by simp [hws])]

/-- A space outside quotes closes the argument whenever one is in progress
or backslashes are pending. -/
theorem tokStep_space (ts : List Str) (a : Str) (k : Nat) (p : Bool)
    (h : p = true ∨ 0 < k) :
    tokStep ⟨ts, a, false, k, p⟩ ' ' =
      ⟨ts ++ [a ++ List.replicate k '\\'], [], false, 0, false⟩ := by
  unfold tokStep
  cases k with
  | zero =>
      have hp : p = true := h.resolve_right (by simp)
      subst hp
      simp [isWhitespaceChar]
  | succ k => simp [isWhitespaceChar]

/-- Folding the scanner over a quote-free, whitespace-free string from a
not-in-quotes state: the string lands in the current argument (with its
trailing backslashes still pending), quotes stay off, and an argument is
in progress as soon as some non-backslash character was ever seen. -/
theorem foldl_tokStep_clean (t : Str) :
    ∀ (ts : List Str) (a : Str) (k : Nat) (p : Bool),
    (∀ c ∈ t, ¬ c = '"' ∧ isWhitespaceChar c = false) →
    ∃ a' k',
      List.foldl tokStep ⟨ts, a, false, k, p⟩ t =
        ⟨ts, a', false, k', p || t.any (fun c => c != '\\')⟩ ∧
      a' ++ List.replicate k' '\\' = a ++ List.replicate k '\\' ++ t ∧
      ((p || t.any (fun c => c != '\\')) = false → a' = a) := by
  induction t with
  | nil =>
      intro ts a k p _
      exact ⟨a, k, by simp, by simp, fun _ => rfl⟩
  | cons c t ih =>
      intro ts a k p hc
      have hcc := hc c (List.mem_cons_self c t)
      by_cases hbs : c = '\\'
      · subst hbs
        rw [List.foldl_cons, tokStep_backslash]
        rcases ih ts a (k + 1) p
            (fun x hx => hc x (List.mem_cons_of_mem _ hx)) with
          ⟨a', k', hst, hcat, hp⟩
        refine ⟨a', k', ?_, ?_, ?_⟩
        · rw [hst]
          simp
        · rw [hcat, List.replicate_succ']
          simp
        · intro h
          exact hp (by simpa using h)
      · rw [List.foldl_cons, tokStep_other c hbs hcc.1 hcc.2]
        rcases ih ts (a ++ List.replicate k '\\' ++ [c]) 0 true
            (fun x hx => hc x (List.mem_cons_of_mem _ hx)) with
          ⟨a', k', hst, hcat, _⟩
        refine ⟨a', k', ?_, ?_, ?_⟩
        · rw [hst]
          simp [hbs]
        · rw [hcat]
          simp
        · intro h
          exfalso
          simp [hbs] at h

/-- Closing the scan pushes the pending argument when one is in progress
or backslashes are pending. -/
theorem tokenizeFinish_push (ts : List Str) (a : Str) (k : Nat) (p : Bool)
    (h : p = true ∨ 0 < k) :
    tokenizeFinish ⟨ts, a, false, k, p⟩ =
      ts ++ [a ++ List.replicate k '\\'] := by
  unfold tokenizeFinish
  cases k with
  | zero =>
      have hp : p = true := h.resolve_right (by simp)
      subst hp
      simp
  | succ k => simp

/-- The splitting pass inverts space-joining for vectors of non-empty
tokens free of quotes and whitespace. -/
theorem tokenizeCore_join (v : List Str) :
    ∀ ts : List Str,
    (∀ t ∈ v, t ≠ [] ∧ ∀ c ∈ t, ¬ c = '"' ∧ isWhitespaceChar c = false) →
    tokenizeFinish (List.foldl tokStep ⟨ts, [], false, 0, false⟩
      (joinSep ' ' v)) = ts ++ v := by
  induction v with
  | nil =>
      intro ts _
      simp [joinSep, tokenizeFinish]
  | cons t v ih =>
      intro ts hv
      have ht := hv t (List.mem_cons_self t v)
      rcases foldl_tokStep_clean t ts [] 0 false ht.2 with
        ⟨a', k', hst, hcat, hp⟩
      have hcat' : a' ++ List.replicate k' '\\' = t := by simpa using hcat
      have hpk : (false || t.any (fun c => c != '\\')) = true ∨ 0 < k' := by
        cases hany : (false || t.any (fun c => c != '\\')) with
        | true => exact Or.inl rfl
        | false =>
            refine Or.inr ?_
            have ha : a' = [] := hp hany
            rw [ha, List.nil_append] at hcat'
            rcases Nat.eq_zero_or_pos k' with hk | hk
            · rw [hk] at hcat'
              exact absurd hcat'.symm ht.1
            · exact hk
      cases v with
      | nil =>
          have hjoin : joinSep ' ' [t] = t := rfl
          rw [hjoin, hst, tokenizeFinish_push ts a' k' _ hpk, hcat']
      | cons t' v' =>
          have hjoin : joinSep ' ' (t :: t' :: v') =
              t ++ ' ' :: joinSep ' ' (t' :: v') := rfl
          rw [hjoin, List.foldl_append, hst, List.foldl_cons,
            tokStep_space ts a' k' _ hpk, hcat']
          rw [ih (ts ++ [t]) (fun x hx => hv x (List.mem_cons_of_mem _ hx))]
          simp

/-- C2, counterexample: both hypotheses of the claim hold for
`["C:", "a.exe"]` (and for the one-empty-token vector), yet tokenizing
their space-joined rendering does not return them: the executable-path
reassembly pass merges the first vector into the single token `C: a.exe`,
and the empty token is dropped. -/
theorem c2_counterexample :
    (∀ t ∈ [['C', ':'], "a.exe".toList], ∀ c ∈ t,
      ¬ c = '"' ∧ isWhitespaceChar c = false) ∧
    tokenize_compile_command (joinSep ' ' [['C', ':'], "a.exe".toList]) ≠
      [['C', ':'], "a.exe".toList] ∧
    (∀ t ∈ [([] : Str)], ∀ c ∈ t,
      ¬ c = '"' ∧ isWhitespaceChar c = false) ∧
    tokenize_compile_command (joinSep ' ' [([] : Str)]) ≠ [([] : Str)] := by
  refine ⟨by decide, by decide, by decide, by decide⟩

/-- C2 (amended): tokenizing the space-joined rendering of a token vector
returns the vector unchanged provided no token contains a quote character
or whitespace, no token is empty, and the first token (if any) either
contains no colon or already looks like an executable path, so that the
reassembly pass does not fire. -/
theorem c2_tokenize_join_roundtrip (v : List Str)
    (hclean : ∀ t ∈ v, t ≠ [] ∧
      ∀ c ∈ t, ¬ c = '"' ∧ isWhitespaceChar c = false)
    (hfirst : ∀ t rest, v = t :: rest →
      t.contains ':' = false ∨ is_executable_path t = true) :
    tokenize_compile_command (joinSep ' ' v) = v := by
  have hcore : tokenizeCore (joinSep ' ' v) = v := by
    have h0 := tokenizeCore_join v [] hclean
    rw [List.nil_append] at h0
    exact h0
  unfold tokenize_compile_command
  rw [hcore]
  cases v with
  | nil => rfl
  | cons t rest =>
      dsimp only
      rcases hfirst t rest rfl with h | h
      · rw [if_neg (by rw [h]; simp)]
      · rw [if_neg (by rw [h]; simp)]

/-- C2, witness: `cl.exe /c main.cpp` round-trips. -/
theorem c2_witness :
    tokenize_compile_command (joinSep ' '
        ["cl.exe".toList, "/c".toList, "main.cpp".toList]) =
      ["cl.exe".toList, "/c".toList, "main.cpp".toList] :=
  c2_tokenize_join_roundtrip
    ["cl.exe".toList, "/c".toList, "main.cpp".toList]
    (by decide) (by intro t rest h; injection h with h1 _; rw [← h1]; decide)

end Ms2cc

